import Mathlib

/-!
Verification development for a Greenhouse job-board scraper.

The source is a TypeScript module exposing a `GreenhouseScraper` class
(`fetchJobs`, `fetchJobDetails`, `normalizeJob`, `filterByKeywords` with its
inner `decodeHtml` sanitizer) plus the free functions `parseGreenhouseUrl`
and `createScraperFromUrl`.  Strings are embedded as `List Char`; JavaScript
`undefined`/`null` on optional fields is embedded as `Option`; the regular
expressions used by the source (all of which are either literal patterns, a
literal-prefix-plus-capture pattern, or a word-boundary alternation of
escaped literals) are embedded by executable scanners with the exact JS
semantics (leftmost match, greedy capture, case-insensitive flag where the
source sets it, ASCII `\w` word boundaries, the JS `\s` whitespace class).
-/

set_option maxHeartbeats 1000000

/-- JS `\s` (and `String.prototype.trim`) whitespace class:
WhiteSpace ∪ LineTerminator per the ECMAScript spec. -/
def isWsJS (c : Char) : Bool :=
  c == ' ' || c == '\t' || c == '\n' || c == '\r' || c == '\x0b' || c == '\x0c' ||
  c == '\u00A0' || c == '\u1680' || ('\u2000' ≤ c && c ≤ '\u200A') || c == '\u2028' ||
  c == '\u2029' || c == '\u202F' || c == '\u205F' || c == '\u3000' || c == '\uFEFF'

/-- JS `\w` word-character class `[A-Za-z0-9_]` (no `u` flag in the source). -/
def isWordChar (c : Char) : Bool :=
  ('a' ≤ c && c ≤ 'z') || ('A' ≤ c && c ≤ 'Z') || ('0' ≤ c && c ≤ '9') || c == '_'

/-- Characters excluded by the capture class `[^\/\?]` of `parseGreenhouseUrl`'s
patterns. -/
def isTokChar (c : Char) : Bool :=
  !(c == '/' || c == '?')

/-- Case-sensitive "`pat` is a prefix of `s`" test (used for JS
`String.prototype.includes` and literal `String.prototype.replace`). -/
def startsL : List Char → List Char → Bool
  | [], _ => true
  | _ :: _, [] => false
  | p :: ps, c :: cs => p == c && startsL ps cs

/-- Case-sensitive substring occurrence: JS `url.includes(pat)`. -/
def containsSub (pat : List Char) : List Char → Bool
  | [] => pat.isEmpty
  | c :: rest => startsL pat (c :: rest) || containsSub pat rest

/-- Case-insensitive "`pat` matches the start of `s`", where `pat` is already
lower-case: embeds matching a literal regex fragment under the `i` flag. -/
def lowerEqPfx : List Char → List Char → Bool
  | [], _ => true
  | _ :: _, [] => false
  | p :: ps, c :: cs => p == c.toLower && lowerEqPfx ps cs

/-- Scanner of JS `s.replace(pat, rep)` for a literal global pattern.
`skip` counts characters of a just-matched occurrence still to be consumed
without re-testing (the occurrence was replaced as a block).  At `skip = 0`
the scanner tests for `pat` at the current position — leftmost-first, exactly
as the JS regex engine does — emits `rep` on a match and schedules the
remaining `pat.length - 1` matched characters for consumption, so scanning
resumes right after the occurrence; otherwise it copies one character. -/
def replaceAllAux (pat rep : List Char) : List Char → Nat → List Char
  | [], _ => []
  | _ :: rest, skip + 1 => replaceAllAux pat rep rest skip
  | c :: rest, 0 =>
    if startsL pat (c :: rest) && !pat.isEmpty then
      rep ++ replaceAllAux pat rep rest (pat.length - 1)
    else
      c :: replaceAllAux pat rep rest 0

/-- JS `s.replace(pat, rep)` for a literal global pattern `pat`: leftmost,
non-overlapping occurrences of `pat` are replaced by `rep`, scanning resumes
after each replacement.  (Every pattern the source passes is non-empty; the
`!pat.isEmpty` guard in the scanner is vacuous for them.) -/
def replaceAll (pat rep s : List Char) : List Char :=
  replaceAllAux pat rep s 0

/-- Scanner of JS `s.replace(/<[^>]*>/g, " ")`.  `pending` holds, in reverse,
the characters read since an as-yet-unclosed `'<'` (empty when outside a
candidate tag span; `[^>]` admits every character but `'>'`, so the span runs
to the first `'>'`).  A `'>'` closes the span, which collapses to one space.
Exhausting the input inside a span means the regex never matched at that
`'<'` — no `'>'` follows it, and none follows any later `'<'` of the span
either — so the buffered characters are emitted verbatim. -/
def stripAux : List Char → List Char → List Char
  | [], pending => pending.reverse
  | c :: rest, [] =>
    if c == '<' then stripAux rest ['<']
    else c :: stripAux rest []
  | c :: rest, p :: ps =>
    if c == '>' then ' ' :: stripAux rest []
    else stripAux rest (c :: p :: ps)

/-- JS `s.replace(/<[^>]*>/g, " ")`: each span from a `'<'` to the first
following `'>'` is replaced by a single space; a `'<'` with no later `'>'`
matches nothing and stays. -/
def stripTags (s : List Char) : List Char :=
  stripAux s []

/-- Run-collapsing scanner of JS `s.replace(/\s+/g, " ")`: `inRun` records
whether the previous character belonged to a whitespace run whose single
replacement space has already been emitted. -/
def collapseAux : List Char → Bool → List Char
  | [], _ => []
  | c :: rest, inRun =>
    if isWsJS c then
      if inRun then collapseAux rest true
      else ' ' :: collapseAux rest true
    else c :: collapseAux rest false

/-- JS `s.replace(/\s+/g, " ")`: each maximal run of whitespace is replaced by
a single space. -/
def collapseWs (s : List Char) : List Char :=
  collapseAux s false

/-- Trailing-whitespace removal (the right half of JS `trim()`). -/
def trimEnd : List Char → List Char
  | [] => []
  | c :: rest =>
    match trimEnd rest with
    | [] => if isWsJS c then [] else [c]
    | r => c :: r

/-- JS `s.trim()`: leading then trailing whitespace removed. -/
def trimJS (s : List Char) : List Char :=
  trimEnd (s.dropWhile isWsJS)

/-- The five entity replacements of `decodeHtml`, in source order:
`&lt; &gt; &amp; &quot; &#39;`. -/
def decodeEntities (s : List Char) : List Char :=
  replaceAll "&#39;".data "'".data
    (replaceAll "&quot;".data "\"".data
      (replaceAll "&amp;".data "&".data
        (replaceAll "&gt;".data ">".data
          (replaceAll "&lt;".data "<".data s))))

/-- The content sanitizer `decodeHtml` from `filterByKeywords`: guard on falsy
input (the empty string), entity decoding, tag stripping, whitespace
collapsing, trim. -/
def decodeHtml (s : List Char) : List Char :=
  if s.isEmpty then []
  else trimJS (collapseWs (stripTags (decodeEntities s)))

/-- Region tag of a `TenantReference`. -/
inductive Region where
  | us
  | eu
deriving DecidableEq

/-- Result of URL resolution: `{companyToken, region}`. -/
structure TenantReference where
  companyToken : List Char
  region : Region
deriving DecidableEq

/-- Lower-cased literal part of pattern `/greenhouse\.io\/([^\/\?]+)/i`. -/
def ghPat : List Char := "greenhouse.io/".data

/-- Lower-cased literal part of pattern `/boards\.greenhouse\.io\/([^\/\?]+)/i`. -/
def boardsPat : List Char := "boards.greenhouse.io/".data

/-- Lower-cased literal part of pattern `/job-boards\.greenhouse\.io\/([^\/\?]+)/i`. -/
def jobBoardsPat : List Char := "job-boards.greenhouse.io/".data

/-- Lower-cased literal part of pattern `/job-boards\.eu\.greenhouse\.io\/([^\/\?]+)/i`. -/
def jobBoardsEuPat : List Char := "job-boards.eu.greenhouse.io/".data

/-- The four patterns of `parseGreenhouseUrl`, in source order. -/
def ghPatterns : List (List Char) := [ghPat, boardsPat, jobBoardsPat, jobBoardsEuPat]

/-- The EU needle of `url.includes(".eu.greenhouse.io")` (case-sensitive). -/
def euNeedle : List Char := ".eu.greenhouse.io".data

/-- JS `url.match(/pat([^\/\?]+)/i)` restricted to its capture group, where
`pat` is a lower-cased literal: the leftmost position where `pat` matches
case-insensitively and is followed by at least one character outside
`{'/', '?'}` wins, and the capture is the maximal (greedy) such run. -/
def matchLitCapture (pat : List Char) : List Char → Option (List Char)
  | [] => none
  | c :: rest =>
    if lowerEqPfx pat (c :: rest) then
      match ((c :: rest).drop pat.length).takeWhile isTokChar with
      | [] => matchLitCapture pat rest
      | tok => some tok
    else matchLitCapture pat rest

/-- The pattern loop of `parseGreenhouseUrl`: first matching pattern returns
`{companyToken: match[1], region}` where the region test is the same on every
iteration. -/
def tryPatterns (url : List Char) : List (List Char) → Option TenantReference
  | [] => none
  | p :: ps =>
    match matchLitCapture p url with
    | some tok =>
        some { companyToken := tok
               region := if containsSub euNeedle url then Region.eu else Region.us }
    | none => tryPatterns url ps

/-- `parseGreenhouseUrl(url)`: try the four patterns in order, `null` (here
`none`) when none matches. -/
def parseGreenhouseUrl (url : List Char) : Option TenantReference :=
  tryPatterns url ghPatterns

/-- Boolean witness that pattern `pat` plus a non-empty `[^\/\?]+` capture
matches at offset `i` of `url`. -/
def occAt (pat url : List Char) (i : Nat) : Bool :=
  lowerEqPfx pat (url.drop i) && !(((url.drop i).drop pat.length).takeWhile isTokChar).isEmpty

/-- The substring `greenhouse.io/` occurs (case-insensitively) at offset `i`
of `url`, followed by at least one character other than `'/'` and `'?'`. -/
def GhOccursAt (url : List Char) (i : Nat) : Prop :=
  lowerEqPfx ghPat (url.drop i) = true ∧
  isTokChar (((url.drop i).drop ghPat.length).headD '/') = true

/-- Vendor job identifier: Greenhouse sends a number, the embedding also
allows a string, matching `job.id?.toString()`. -/
inductive RawId where
  | num (n : Int)
  | str (s : List Char)
deriving DecidableEq

/-- `job.id?.toString()` on a present id. -/
def rawIdToString : RawId → List Char
  | .num n => (toString n).data
  | .str s => s

/-- Nested `job.location` object; its `name` may itself be absent. -/
structure RawLocation where
  name : Option (List Char)
deriving DecidableEq

/-- Element shape of `job.departments` / `job.offices`. -/
structure RawNamed where
  name : List Char
deriving DecidableEq

/-- Opaque `job.metadata` entry, passed through unchanged. -/
structure MetaEntry where
  payload : List Char
deriving DecidableEq

/-- Opaque `job.questions` entry, passed through unchanged. -/
structure AppQuestion where
  payload : List Char
deriving DecidableEq

/-- Vendor-shaped raw job record; every top-level field the source reads
optionally is an `Option` (JS `undefined`/`null`). -/
structure RawJobRecord where
  id : Option RawId
  title : Option (List Char)
  absolute_url : Option (List Char)
  location : Option RawLocation
  departments : Option (List RawNamed)
  offices : Option (List RawNamed)
  content : Option (List Char)
  metadata : Option (List MetaEntry)
  questions : Option (List AppQuestion)
  updated_at : Option (List Char)
deriving DecidableEq

/-- The object literal produced by `normalizeJob`.  A field whose source
expression can evaluate to JS `undefined` is an `Option`; the rest are total. -/
structure NormalizedJob where
  externalId : Option (List Char)
  title : Option (List Char)
  absoluteUrl : Option (List Char)
  applyUrl : Option (List Char)
  location : List Char
  departments : List (List Char)
  offices : List (List Char)
  content : List Char
  htmlContent : List Char
  updatedAt : Option (List Char)
  metadata : List MetaEntry
  questions : List AppQuestion
  scrapedAt : List Char
  source : List Char
  companyToken : List Char
deriving DecidableEq

/-- `job.location?.name || "Remote"`: absent location, absent name and the
empty (falsy) name all default to `"Remote"`. -/
def locOf : Option RawLocation → List Char
  | none => "Remote".data
  | some loc =>
    match loc.name with
    | none => "Remote".data
    | some n => if n.isEmpty then "Remote".data else n

/-- `normalizeJob(job)`.  `companyToken` is the instance token; `now` stands
for `new Date().toISOString()` taken at normalization time. -/
def normalizeJob (companyToken now : List Char) (job : RawJobRecord) : NormalizedJob :=
  { externalId := job.id.map rawIdToString
    title := job.title
    absoluteUrl := job.absolute_url
    applyUrl := job.absolute_url
    location := locOf job.location
    departments := (job.departments.getD []).map RawNamed.name
    offices := (job.offices.getD []).map RawNamed.name
    content := job.content.getD []
    htmlContent := job.content.getD []
    updatedAt := job.updated_at
    metadata := job.metadata.getD []
    questions := job.questions.getD []
    scrapedAt := now
    source := "greenhouse".data
    companyToken := companyToken }

/-- The regex metacharacters escaped by `filterByKeywords`:
`[.*+?^${}()|[\]\\]`. -/
def escMetaChars : List Char :=
  ['.', '*', '+', '?', '^', '$', '\x7b', '\x7d', '(', ')', '|', '[', ']', '\\']

/-- Membership in the escaped-metacharacter class. -/
def isMetaChar (c : Char) : Bool :=
  escMetaChars.contains c

/-- `kw.replace(/[.*+?^${}()|[\]\\]/g, "\\$&")`: a backslash is inserted
before every regex metacharacter. -/
def escapeKw : List Char → List Char
  | [] => []
  | c :: rest =>
    if isMetaChar c then '\\' :: c :: escapeKw rest
    else c :: escapeKw rest

/-- Reads an escaped pattern fragment back as the literal text it matches.
`none` models a fragment that is not a pure literal: a dangling backslash or
an unescaped metacharacter (the inputs on which `new RegExp` would either
fail to compile or apply operator semantics). -/
def readLiteral : List Char → Option (List Char)
  | [] => some []
  | c :: rest =>
    if c == '\\' then
      match rest with
      | [] => none
      | d :: rest2 => if isMetaChar d then (readLiteral rest2).map (d :: ·) else none
    else if isMetaChar c then none
    else (readLiteral rest).map (c :: ·)

/-- Case-insensitive literal match of `kw` against the start of `s`
(JS `i` flag canonicalization, ASCII-faithful). -/
def ciStarts : List Char → List Char → Bool
  | [], _ => true
  | _ :: _, [] => false
  | k :: ks, c :: cs => (k.toLower == c.toLower) && ciStarts ks cs

/-- Word-character test on an optional character; out-of-text counts as
non-word, as JS `\b` does at the ends of the input. -/
def wordOpt : Option Char → Bool
  | none => false
  | some c => isWordChar c

/-- JS `\b`: a boundary lies between two positions iff exactly one side is a
word character. -/
def boundary (l r : Option Char) : Bool :=
  wordOpt l != wordOpt r

/-- Last element of `l` when non-empty, else the fallback `dflt`. -/
def lastOr (l : List Char) (dflt : Option Char) : Option Char :=
  match l.getLast? with
  | some c => some c
  | none => dflt

/-- The pattern `\b(kw)\b` (flag `i`) matches at the position whose preceding
character is `prev` and whose remaining text is `t`. -/
def matchAt (kw : List Char) (prev : Option Char) (t : List Char) : Bool :=
  ciStarts kw t &&
  boundary prev t.head? &&
  boundary (lastOr (t.take kw.length) prev) (t.drop kw.length).head?

/-- Scan of `keywordRegex.test(searchText)`: try every position (including the
end of the text) and every alternative of the alternation. -/
def scanTest (kws : List (List Char)) : Option Char → List Char → Bool
  | prev, [] => kws.any fun kw => matchAt kw prev []
  | prev, c :: rest =>
      (kws.any fun kw => matchAt kw prev (c :: rest)) || scanTest kws (some c) rest

/-- `new RegExp("\\b(" + escapedKeywords + ")\\b", "i").test(t)` for the
escaped alternation built from `kws`: some keyword matches literally at some
position, flanked by word boundaries. -/
def regexTest (kws : List (List Char)) (t : List Char) : Bool :=
  scanTest kws none t

/-- JS `Array.prototype.join(" ")`. -/
def joinSpace : List (List Char) → List Char
  | [] => []
  | [x] => x
  | x :: y :: rest => x ++ ' ' :: joinSpace (y :: rest)

/-- The searchable text of one posting, exactly as built in the filter
callback: `` `${job.title || ""} ${cleanContent} ${departmentsText}` ``
lower-cased, with `cleanContent = decodeHtml(job.content || "")` and
`departmentsText = (job.departments || []).join(" ")`. -/
def searchTextOf (job : NormalizedJob) : List Char :=
  ((job.title.getD []) ++ [' '] ++ decodeHtml job.content ++ [' '] ++
    joinSpace job.departments).map Char.toLower

/-- The filter predicate: `keywordRegex.test(searchText)`. -/
def jobMatches (kws : List (List Char)) (job : NormalizedJob) : Bool :=
  regexTest kws (searchTextOf job)

/-- `filterByKeywords(jobs, keywords)`: pass-through when `keywords` is absent
(`none`) or empty, otherwise `jobs.filter(...)` against the compiled
alternation. -/
def filterByKeywords (jobs : List NormalizedJob) (keywords : Option (List (List Char))) :
    List NormalizedJob :=
  match keywords with
  | none => jobs
  | some kws => if kws.isEmpty then jobs else jobs.filter (jobMatches kws)

/-- A transport-layer failure as `fetchJobs` observes it: `status?` embeds
`error.response?.status` (`none` when there is no HTTP response, e.g. network
error or timeout), `message` the rest of the error value. -/
structure HttpErr where
  status? : Option Nat
  message : List Char
deriving DecidableEq

/-- Listing response body: `response.data.jobs` may be absent or `null`
(both embedded as `none`). -/
structure ListingBody where
  jobs : Option (List RawJobRecord)
deriving DecidableEq

/-- Domain-level failure of `fetchJobs`: the 404 case is rethrown as the
"Company token ... not found in Greenhouse" error carrying the token, every
other transport failure is rethrown unchanged. -/
inductive FetchError where
  | tenantNotFound (companyToken : List Char)
  | transport (e : HttpErr)
deriving DecidableEq

/-- `fetchJobs(filters)` with the single network call shallowly embedded as
its outcome `result`: on success, `response.data.jobs || []` is normalized
record by record; on failure, a 404 status becomes `tenantNotFound` with the
instance's token, anything else propagates unchanged. -/
def fetchJobs (companyToken now : List Char) (result : Except HttpErr ListingBody) :
    Except FetchError (List NormalizedJob) :=
  match result with
  | .ok body => .ok ((body.jobs.getD []).map (normalizeJob companyToken now))
  | .error e =>
    if e.status? = some 404 then .error (.tenantNotFound companyToken)
    else .error (.transport e)

/-- A raw record with every optional field absent. -/
def emptyRaw : RawJobRecord :=
  { id := none, title := none, absolute_url := none, location := none,
    departments := none, offices := none, content := none, metadata := none,
    questions := none, updated_at := none }

/-- Normalized-job fixture with the given title and departments, empty
content, for concrete matcher runs. -/
def mkTestJob (title : Option (List Char)) (departments : List (List Char)) : NormalizedJob :=
  { externalId := none, title := title, absoluteUrl := none, applyUrl := none,
    location := "Remote".data, departments := departments, offices := [],
    content := [], htmlContent := [], updatedAt := none, metadata := [],
    questions := [], scrapedAt := [], source := "greenhouse".data, companyToken := [] }

/-- Posting titled `c++ developer`. -/
def cppJob : NormalizedJob := mkTestJob (some ("c++ developer".data)) []

/-- Posting whose only occurrence of `ui` is inside the word `build`. -/
def buildJob : NormalizedJob := mkTestJob (some ("build systems".data)) []

/-- Posting with a standalone upper-case `UI` in its title. -/
def uiJob : NormalizedJob := mkTestJob (some ("Senior UI Developer".data)) []

/-- Posting whose only standalone `UI` sits in a department name. -/
def uiDeptJob : NormalizedJob := mkTestJob (some ("Designer".data)) ["UI".data]

/-- Posting titled `Frontend Engineer`, used for filter pass-through runs. -/
def sampleJob : NormalizedJob := mkTestJob (some ("Frontend Engineer".data)) []

/-- Absence of a strippable tag span: no `'<'` in the list is followed
(anywhere later) by a `'>'`.  Exactly the texts on which `/<[^>]*>/` has no
match. -/
def noTagB : List Char → Bool
  | [] => true
  | c :: rest => !(c == '<' && rest.contains '>') && noTagB rest

/-- Whether a list starts with a whitespace character. -/
def wsFirst : List Char → Bool
  | [] => false
  | c :: _ => isWsJS c

/-- Collapsed-whitespace invariant: every whitespace character is a plain
space and no whitespace character is followed by another.  Exactly the texts
on which `/\s+/` can only match single spaces. -/
def collapsedB : List Char → Bool
  | [] => true
  | c :: rest => (!(isWsJS c) || (c == ' ' && !(wsFirst rest))) && collapsedB rest

/-- In the pattern loop, the region of any successful result is computed by
the same EU-substring test whatever pattern matched. -/
theorem tryPatterns_region (url : List Char) (ps : List (List Char)) (t : TenantReference)
    (h : tryPatterns url ps = some t) :
    t.region = if containsSub euNeedle url then Region.eu else Region.us := by
  induction ps with
  | nil => simp [tryPatterns] at h
  | cons p ps ih =>
    rw [tryPatterns] at h
    cases hm : matchLitCapture p url with
    | some tok =>
      rw [hm] at h
      injection h with h2
      subst h2
      rfl
    | none =>
      rw [hm] at h
      exact ih h

/-- C2: the URL resolver maps the bare boards URL of acme to token acme with
region us, maps the EU job-boards URL of acme to token acme with region eu,
fails on a non-greenhouse URL, and in general the region of any successful
resolution is decided solely by whether the case-sensitive EU host substring
occurs anywhere in the URL, independently of which pattern matched. -/
theorem parseGreenhouseUrl_examples :
    parseGreenhouseUrl ("https://boards.greenhouse.io/acme".data) =
      some { companyToken := "acme".data, region := Region.us } ∧
    parseGreenhouseUrl ("https://job-boards.eu.greenhouse.io/acme".data) =
      some { companyToken := "acme".data, region := Region.eu } ∧
    parseGreenhouseUrl ("https://example.com/careers".data) = none ∧
    ∀ url t, parseGreenhouseUrl url = some t →
      t.region = if containsSub euNeedle url then Region.eu else Region.us := by
  refine ⟨by decide, by decide, by decide, ?_⟩
  intro url t h
  exact tryPatterns_region url ghPatterns t h

/-- C2 witness: the general region clause instantiated on the first example. -/
theorem parseGreenhouseUrl_examples_witness :
    parseGreenhouseUrl ("https://boards.greenhouse.io/acme".data) =
      some { companyToken := "acme".data, region := Region.us } ∧
    ({ companyToken := "acme".data, region := Region.us } : TenantReference).region =
      (if containsSub euNeedle ("https://boards.greenhouse.io/acme".data) then Region.eu
       else Region.us) :=
  ⟨parseGreenhouseUrl_examples.1,
   parseGreenhouseUrl_examples.2.2.2 _ _ parseGreenhouseUrl_examples.1⟩

/-- Dropping the matched prefix of a concatenated literal pattern leaves a
match of the second half. -/
theorem lowerEqPfx_append (p q s : List Char) (h : lowerEqPfx (p ++ q) s = true) :
    lowerEqPfx q (s.drop p.length) = true := by
  induction p generalizing s with
  | nil => simpa using h
  | cons a p ih =>
    cases s with
    | nil => simp [lowerEqPfx] at h
    | cons c cs =>
      simp only [List.cons_append] at h
      rw [lowerEqPfx, Bool.and_eq_true] at h
      simpa [List.drop_succ_cons] using ih cs h.2

/-- Shifting the offset by one steps over the head of the scanned text. -/
theorem occAt_succ (pat : List Char) (c : Char) (rest : List Char) (i : Nat) :
    occAt pat (c :: rest) (i + 1) = occAt pat rest i := by
  simp [occAt, List.drop_succ_cons]

/-- When no match starts at offset zero, matches of the whole text and of its
tail are in bijection. -/
theorem exists_occAt_cons (pat : List Char) (c : Char) (rest : List Char)
    (h0 : occAt pat (c :: rest) 0 = false) :
    (∃ i, occAt pat (c :: rest) i = true) ↔ (∃ i, occAt pat rest i = true) := by
  constructor
  · rintro ⟨i, hi⟩
    cases i with
    | zero => rw [h0] at hi; exact absurd hi (by simp)
    | succ j => exact ⟨j, by rwa [occAt_succ] at hi⟩
  · rintro ⟨i, hi⟩
    exact ⟨i + 1, by rwa [occAt_succ]⟩

/-- The literal-plus-capture scanner succeeds exactly when the pattern with a
non-empty capture occurs at some offset. -/
theorem matchLitCapture_isSome_iff (pat url : List Char) :
    (matchLitCapture pat url).isSome = true ↔ ∃ i, occAt pat url i = true := by
  induction url with
  | nil =>
    constructor
    · intro h; simp [matchLitCapture] at h
    · rintro ⟨i, hi⟩; simp [occAt] at hi
  | cons c rest ih =>
    by_cases hp : lowerEqPfx pat (c :: rest) = true
    · cases ht : ((c :: rest).drop pat.length).takeWhile isTokChar with
      | nil =>
        have h0 : occAt pat (c :: rest) 0 = false := by
          simp [occAt, List.drop_zero, ht]
        rw [matchLitCapture, if_pos hp, ht, exists_occAt_cons pat c rest h0]
        exact ih
      | cons x xs =>
        have h0 : occAt pat (c :: rest) 0 = true := by
          simp [occAt, List.drop_zero, hp, ht]
        rw [matchLitCapture, if_pos hp, ht]
        simp only [Option.isSome_some, true_iff]
        exact ⟨0, h0⟩
    · have hpf : lowerEqPfx pat (c :: rest) = false := by
        cases hb : lowerEqPfx pat (c :: rest) with
        | false => rfl
        | true => exact absurd hb hp
      have h0 : occAt pat (c :: rest) 0 = false := by
        simp [occAt, List.drop_zero, hpf]
      rw [matchLitCapture, if_neg hp, exists_occAt_cons pat c rest h0]
      exact ih

/-- An occurrence of a concatenated pattern gives an occurrence of its second
half at the shifted offset. -/
theorem occAt_append (p q url : List Char) (i : Nat) (h : occAt (p ++ q) url i = true) :
    occAt q url (i + p.length) = true := by
  simp only [occAt, Bool.and_eq_true] at h ⊢
  obtain ⟨h1, h2⟩ := h
  have hd : url.drop (i + p.length) = (url.drop i).drop p.length := by
    rw [List.drop_drop]
  constructor
  · rw [hd]
    exact lowerEqPfx_append p q _ h1
  · rw [hd, List.drop_drop]
    have harith : p.length + q.length = (p ++ q).length := by
      simp [List.length_append]
    rw [harith]
    exact h2

/-- If a pattern with a shorter literal tail finds no match, any extension of
that literal on the left finds none either. -/
theorem matchLitCapture_none_ext (p q url : List Char) (h : matchLitCapture q url = none) :
    matchLitCapture (p ++ q) url = none := by
  rw [← Option.not_isSome_iff_eq_none] at h ⊢
  intro hs
  apply h
  rw [matchLitCapture_isSome_iff] at hs ⊢
  obtain ⟨i, hi⟩ := hs
  exact ⟨i + p.length, occAt_append p q url i hi⟩

/-- The four-pattern loop computes exactly what the first (bare-domain)
pattern alone computes. -/
theorem parseGreenhouseUrl_eq_first (url : List Char) :
    parseGreenhouseUrl url =
      (matchLitCapture ghPat url).map fun tok =>
        { companyToken := tok
          region := if containsSub euNeedle url then Region.eu else Region.us } := by
  cases h : matchLitCapture ghPat url with
  | some tok => simp [parseGreenhouseUrl, ghPatterns, tryPatterns, h]
  | none =>
    have e2 : boardsPat = "boards.".data ++ ghPat := by decide
    have e3 : jobBoardsPat = "job-boards.".data ++ ghPat := by decide
    have e4 : jobBoardsEuPat = "job-boards.eu.".data ++ ghPat := by decide
    have h2 : matchLitCapture boardsPat url = none := by
      rw [e2]; exact matchLitCapture_none_ext _ _ _ h
    have h3 : matchLitCapture jobBoardsPat url = none := by
      rw [e3]; exact matchLitCapture_none_ext _ _ _ h
    have h4 : matchLitCapture jobBoardsEuPat url = none := by
      rw [e4]; exact matchLitCapture_none_ext _ _ _ h
    simp [parseGreenhouseUrl, ghPatterns, tryPatterns, h, h2, h3, h4]

/-- A take-while result is non-empty exactly when the head of the list
satisfies the predicate, with the non-satisfying default for empty lists. -/
theorem takeWhile_tok_ne_nil (l : List Char) :
    (¬((l.takeWhile isTokChar).isEmpty = true)) ↔ isTokChar (l.headD '/') = true := by
  cases l with
  | nil => simp [isTokChar]
  | cons a as =>
    by_cases hp : isTokChar a = true
    · simp [List.takeWhile_cons, hp]
    · simp [List.takeWhile_cons, hp]

/-- The boolean occurrence test agrees with the declarative occurrence
predicate for the bare-domain pattern. -/
theorem occAt_iff_ghOccursAt (url : List Char) (i : Nat) :
    occAt ghPat url i = true ↔ GhOccursAt url i := by
  rw [occAt, GhOccursAt, Bool.and_eq_true]
  constructor
  · rintro ⟨h1, h2⟩
    refine ⟨h1, ?_⟩
    rw [← takeWhile_tok_ne_nil]
    simpa using h2
  · rintro ⟨h1, h2⟩
    refine ⟨h1, ?_⟩
    rw [← takeWhile_tok_ne_nil] at h2
    simpa using h2

/-- C9: the first (bare-domain) pattern decides every input: the four-pattern
loop equals the single-pattern scanner (so the three subdomain patterns never
influence the result); resolution succeeds exactly when the substring
greenhouse.io/ occurs case-insensitively somewhere in the URL followed by at
least one character other than slash and question mark; and inputs outside the
four documented shapes, such as the api subdomain, still resolve (here to the
path segment v1). -/
theorem parseGreenhouseUrl_first_pattern_decides :
    (∀ url, parseGreenhouseUrl url =
      (matchLitCapture ghPat url).map fun tok =>
        { companyToken := tok
          region := if containsSub euNeedle url then Region.eu else Region.us }) ∧
    (∀ url, (parseGreenhouseUrl url).isSome = true ↔ ∃ i, GhOccursAt url i) ∧
    parseGreenhouseUrl ("https://api.greenhouse.io/v1/boards".data) =
      some { companyToken := "v1".data, region := Region.us } := by
  refine ⟨parseGreenhouseUrl_eq_first, ?_, by decide⟩
  intro url
  rw [parseGreenhouseUrl_eq_first]
  rw [Option.isSome_map']
  rw [matchLitCapture_isSome_iff]
  exact exists_congr fun i => by rw [occAt_iff_ghOccursAt]

/-- C1 (amended): the normalizer is total and defaults exactly the fields the
source guards — location falls back to Remote, departments, offices, metadata
and questions to the empty sequence, content and htmlContent to the empty
string — while externalId, title, absoluteUrl, applyUrl and updatedAt mirror
the input and stay undefined when the corresponding raw field is absent. -/
theorem normalizeJob_defaults_and_passthrough (tok now : List Char) (job : RawJobRecord) :
    (job.location = none → (normalizeJob tok now job).location = "Remote".data) ∧
    (job.departments = none → (normalizeJob tok now job).departments = []) ∧
    (job.offices = none → (normalizeJob tok now job).offices = []) ∧
    (job.content = none →
      (normalizeJob tok now job).content = [] ∧ (normalizeJob tok now job).htmlContent = []) ∧
    (job.metadata = none → (normalizeJob tok now job).metadata = []) ∧
    (job.questions = none → (normalizeJob tok now job).questions = []) ∧
    (job.id = none → (normalizeJob tok now job).externalId = none) ∧
    (job.title = none → (normalizeJob tok now job).title = none) ∧
    (job.absolute_url = none →
      (normalizeJob tok now job).absoluteUrl = none ∧ (normalizeJob tok now job).applyUrl = none) ∧
    (job.updated_at = none → (normalizeJob tok now job).updatedAt = none) := by
  refine ⟨?_, ?_, ?_, ?_, ?_, ?_, ?_, ?_, ?_, ?_⟩ <;>
    intro h <;> simp [normalizeJob, locOf, h]

/-- C1 counterexample: on a record with every optional field absent, the
normalizer leaves externalId, title, absoluteUrl, applyUrl and updatedAt
undefined — not defaulted to any defined value as the claim states. -/
theorem normalizeJob_leaves_fields_undefined :
    (normalizeJob ("acme".data) [] emptyRaw).externalId = none ∧
    (normalizeJob ("acme".data) [] emptyRaw).title = none ∧
    (normalizeJob ("acme".data) [] emptyRaw).absoluteUrl = none ∧
    (normalizeJob ("acme".data) [] emptyRaw).applyUrl = none ∧
    (normalizeJob ("acme".data) [] emptyRaw).updatedAt = none :=
  ⟨rfl, rfl, rfl, rfl, rfl⟩

/-- C1 witness: every clause of the amended theorem instantiated on the
all-absent record. -/
theorem normalizeJob_defaults_witness :
    (normalizeJob ("acme".data) [] emptyRaw).location = "Remote".data ∧
    (normalizeJob ("acme".data) [] emptyRaw).departments = [] ∧
    (normalizeJob ("acme".data) [] emptyRaw).offices = [] ∧
    ((normalizeJob ("acme".data) [] emptyRaw).content = [] ∧
      (normalizeJob ("acme".data) [] emptyRaw).htmlContent = []) ∧
    (normalizeJob ("acme".data) [] emptyRaw).metadata = [] ∧
    (normalizeJob ("acme".data) [] emptyRaw).questions = [] ∧
    (normalizeJob ("acme".data) [] emptyRaw).externalId = none ∧
    (normalizeJob ("acme".data) [] emptyRaw).title = none ∧
    ((normalizeJob ("acme".data) [] emptyRaw).absoluteUrl = none ∧
      (normalizeJob ("acme".data) [] emptyRaw).applyUrl = none) ∧
    (normalizeJob ("acme".data) [] emptyRaw).updatedAt = none :=
  ⟨(normalizeJob_defaults_and_passthrough _ _ _).1 rfl,
   (normalizeJob_defaults_and_passthrough _ _ _).2.1 rfl,
   (normalizeJob_defaults_and_passthrough _ _ _).2.2.1 rfl,
   (normalizeJob_defaults_and_passthrough _ _ _).2.2.2.1 rfl,
   (normalizeJob_defaults_and_passthrough _ _ _).2.2.2.2.1 rfl,
   (normalizeJob_defaults_and_passthrough _ _ _).2.2.2.2.2.1 rfl,
   (normalizeJob_defaults_and_passthrough _ _ _).2.2.2.2.2.2.1 rfl,
   (normalizeJob_defaults_and_passthrough _ _ _).2.2.2.2.2.2.2.1 rfl,
   (normalizeJob_defaults_and_passthrough _ _ _).2.2.2.2.2.2.2.2.1 rfl,
   (normalizeJob_defaults_and_passthrough _ _ _).2.2.2.2.2.2.2.2.2 rfl⟩

/-- A case-insensitive prefix match exhibits the keyword's lower-cased
characters at the start of the lower-cased text. -/
theorem ciStarts_toLower_append (kw s : List Char) (h : ciStarts kw s = true) :
    ∃ r, s.map Char.toLower = kw.map Char.toLower ++ r := by
  induction kw generalizing s with
  | nil => exact ⟨s.map Char.toLower, rfl⟩
  | cons k ks ih =>
    cases s with
    | nil => simp [ciStarts] at h
    | cons c cs =>
      rw [ciStarts, Bool.and_eq_true] at h
      obtain ⟨h1, h2⟩ := h
      obtain ⟨r, hr⟩ := ih cs h2
      have hc : c.toLower = k.toLower := (beq_iff_eq.1 h1).symm
      exact ⟨r, by simp [hc, hr]⟩

/-- A successful boundary scan contains a successful case-insensitive literal
match of one of the keywords at some offset. -/
theorem scanTest_ciStarts (kws : List (List Char)) (prev : Option Char) (t : List Char)
    (h : scanTest kws prev t = true) :
    ∃ kw ∈ kws, ∃ i, ciStarts kw (t.drop i) = true := by
  induction t generalizing prev with
  | nil =>
    rw [scanTest, List.any_eq_true] at h
    obtain ⟨kw, hkw, hm⟩ := h
    rw [matchAt, Bool.and_eq_true, Bool.and_eq_true] at hm
    exact ⟨kw, hkw, 0, hm.1.1⟩
  | cons c rest ih =>
    rw [scanTest, Bool.or_eq_true] at h
    cases h with
    | inl h =>
      rw [List.any_eq_true] at h
      obtain ⟨kw, hkw, hm⟩ := h
      rw [matchAt, Bool.and_eq_true, Bool.and_eq_true] at hm
      exact ⟨kw, hkw, 0, hm.1.1⟩
    | inr h =>
      obtain ⟨kw, hkw, i, hi⟩ := ih (some c) h
      exact ⟨kw, hkw, i + 1, by simpa [List.drop_succ_cons] using hi⟩

/-- C4: every keyword reads back from its escaped form as the pure literal it
was (so the constructed pattern always compiles and no metacharacter acts as
an operator), and whenever the compiled matcher accepts a text, the keyword's
characters occur literally (case-insensitively) in that text. -/
theorem keyword_escaping_literal_safe :
    (∀ kw : List Char, readLiteral (escapeKw kw) = some kw) ∧
    (∀ kw t : List Char, regexTest [kw] t = true →
      ∃ a b, t.map Char.toLower = a ++ kw.map Char.toLower ++ b) := by
  constructor
  · intro kw
    induction kw with
    | nil => rfl
    | cons c rest ih =>
      by_cases hc : isMetaChar c = true
      · rw [escapeKw, if_pos hc]
        rw [readLiteral]
        simp [readLiteral, hc, ih]
      · have hcb : ¬(c == '\\') = true := by
          intro hb
          apply hc
          rw [beq_iff_eq.1 hb]
          decide
        rw [escapeKw, if_neg hc]
        rw [readLiteral.eq_def]
        simp only [hcb, if_false, Bool.false_eq_true]
        rw [if_neg hc, ih]
        rfl
  · intro kw t h
    obtain ⟨kw', hkw', i, hi⟩ := scanTest_ciStarts [kw] none t h
    rw [List.mem_singleton] at hkw'
    rw [hkw'] at hi
    obtain ⟨r, hr⟩ := ciStarts_toLower_append kw _ hi
    refine ⟨(t.take i).map Char.toLower, r, ?_⟩
    calc t.map Char.toLower
        = (t.take i ++ t.drop i).map Char.toLower := by rw [List.take_append_drop]
      _ = (t.take i).map Char.toLower ++ (t.drop i).map Char.toLower := by
          rw [List.map_append]
      _ = (t.take i).map Char.toLower ++ (kw.map Char.toLower ++ r) := by rw [hr]
      _ = (t.take i).map Char.toLower ++ kw.map Char.toLower ++ r := by
          rw [List.append_assoc]

/-- C4 witness: the escaped form of C++ reads back as the literal C++, and
the matcher clause instantiated where the keyword c++ accepts a text that
does contain it literally. -/
theorem keyword_escaping_literal_safe_witness :
    readLiteral (escapeKw ("C++".data)) = some ("C++".data) ∧
    regexTest [("c++".data)] ("use c++x".data) = true ∧
    (∃ a b, ("use c++x".data).map Char.toLower =
      a ++ ("c++".data).map Char.toLower ++ b) :=
  ⟨keyword_escaping_literal_safe.1 _, by decide,
   keyword_escaping_literal_safe.2 _ _ (by decide)⟩

/-- C5: the keyword ui does not select the posting whose only ui sits inside
the word build, and does select postings with a standalone upper-case UI in
the title or in a department name. -/
theorem keyword_whole_word_case_insensitive :
    filterByKeywords [buildJob] (some [("ui".data)]) = [] ∧
    filterByKeywords [uiJob] (some [("ui".data)]) = [uiJob] ∧
    filterByKeywords [uiDeptJob] (some [("ui".data)]) = [uiDeptJob] :=
  ⟨by decide, by decide, by decide⟩

/-- C6: with absent or empty keywords the filter returns the input sequence
itself, and with non-empty keywords it returns exactly the filter of the
input — an order-preserving subsequence whose members are the matching
input jobs. -/
theorem filterByKeywords_pass_through_and_filter (jobs : List NormalizedJob) :
    filterByKeywords jobs none = jobs ∧
    filterByKeywords jobs (some []) = jobs ∧
    ∀ kws, kws ≠ [] →
      filterByKeywords jobs (some kws) = jobs.filter (jobMatches kws) ∧
      List.Sublist (filterByKeywords jobs (some kws)) jobs ∧
      ∀ j, j ∈ filterByKeywords jobs (some kws) ↔ j ∈ jobs ∧ jobMatches kws j = true := by
  refine ⟨rfl, rfl, ?_⟩
  intro kws hk
  have he : kws.isEmpty = false := by
    cases kws with
    | nil => exact absurd rfl hk
    | cons a l => rfl
  refine ⟨by simp [filterByKeywords, he], ?_, ?_⟩
  · simp only [filterByKeywords, he, Bool.false_eq_true, if_false]
    exact List.filter_sublist jobs
  · intro j
    simp [filterByKeywords, he, List.mem_filter]

/-- C6 witness: the non-empty-keywords clause instantiated on a singleton job
list and the keyword frontend. -/
theorem filterByKeywords_pass_through_witness :
    (["frontend".data] : List (List Char)) ≠ [] ∧
    filterByKeywords [sampleJob] (some ["frontend".data]) =
      [sampleJob].filter (jobMatches ["frontend".data]) ∧
    List.Sublist (filterByKeywords [sampleJob] (some ["frontend".data])) [sampleJob] :=
  ⟨by decide,
   ((filterByKeywords_pass_through_and_filter [sampleJob]).2.2 _ (by decide)).1,
   ((filterByKeywords_pass_through_and_filter [sampleJob]).2.2 _ (by decide)).2.1⟩

/-- C10: with keyword c++ and a posting titled c++ developer (empty content,
no departments), the filter returns the empty list: the trailing word
boundary after the escaped plus fails before a space. -/
theorem trailing_metachar_keyword_fails :
    filterByKeywords [cppJob] (some [("c++".data)]) = [] ∧
    regexTest [("c++".data)] (searchTextOf cppJob) = false :=
  ⟨by decide, by decide⟩

/-- C7: a transport failure whose status is 404 becomes tenantNotFound
carrying the exact token of the request; any other transport failure is
propagated unchanged. -/
theorem fetchJobs_error_classification (tok now : List Char) (e : HttpErr) :
    (e.status? = some 404 → fetchJobs tok now (.error e) = .error (.tenantNotFound tok)) ∧
    (e.status? ≠ some 404 → fetchJobs tok now (.error e) = .error (.transport e)) := by
  constructor
  · intro h
    simp [fetchJobs, h]
  · intro h
    simp [fetchJobs, h]

/-- C7 witness: both clauses instantiated, on a 404 error and on a
response-less (network/timeout-style) error. -/
theorem fetchJobs_error_classification_witness :
    ((⟨some 404, []⟩ : HttpErr).status? = some 404 ∧
      fetchJobs ("acme".data) [] (.error ⟨some 404, []⟩) =
        .error (.tenantNotFound ("acme".data))) ∧
    ((⟨none, []⟩ : HttpErr).status? ≠ some 404 ∧
      fetchJobs ("acme".data) [] (.error ⟨none, []⟩) =
        .error (.transport ⟨none, []⟩)) :=
  ⟨⟨rfl, (fetchJobs_error_classification _ _ _).1 rfl⟩,
   ⟨by simp, (fetchJobs_error_classification _ _ _).2 (by simp)⟩⟩

/-- C8: a listing body whose jobs field is absent-or-null or the empty array
yields the empty job sequence, not an error, and filtering an empty sequence
by any keyword argument yields the empty sequence. -/
theorem fetchJobs_empty_listing (tok now : List Char) (kws : Option (List (List Char))) :
    fetchJobs tok now (.ok ⟨none⟩) = .ok [] ∧
    fetchJobs tok now (.ok ⟨some []⟩) = .ok [] ∧
    filterByKeywords [] kws = [] := by
  refine ⟨rfl, rfl, ?_⟩
  cases kws with
  | none => rfl
  | some l =>
    cases l with
    | nil => rfl
    | cons a t => simp [filterByKeywords]

/-- A literal pattern whose first character never occurs in the text replaces
nothing. -/
theorem replaceAllAux_not_mem (pat rep s : List Char) (a : Char)
    (hp : pat.head? = some a) (h : a ∉ s) :
    replaceAllAux pat rep s 0 = s := by
  induction s with
  | nil => rfl
  | cons c rest ih =>
    cases pat with
    | nil => simp at hp
    | cons b ps =>
      have hb : b = a := by simpa using hp
      subst hb
      have hbc : (b == c) = false := by
        cases hv : b == c with
        | false => rfl
        | true =>
          refine absurd ?_ h
          rw [beq_iff_eq.1 hv]
          exact List.mem_cons_self c rest
      have hrest : b ∉ rest := fun hm => h (List.mem_cons_of_mem _ hm)
      simp [replaceAllAux, startsL, hbc, ih hrest]

/-- With no ampersand in the text, all five entity passes are the identity. -/
theorem decodeEntities_amp_free (s : List Char) (h : '&' ∉ s) : decodeEntities s = s := by
  rw [decodeEntities, replaceAll, replaceAll, replaceAll, replaceAll, replaceAll]
  rw [replaceAllAux_not_mem ("&lt;".data) ("<".data) s '&' rfl h]
  rw [replaceAllAux_not_mem ("&gt;".data) (">".data) s '&' rfl h]
  rw [replaceAllAux_not_mem ("&amp;".data) ("&".data) s '&' rfl h]
  rw [replaceAllAux_not_mem ("&quot;".data) ("\"".data) s '&' rfl h]
  rw [replaceAllAux_not_mem ("&#39;".data) ("'".data) s '&' rfl h]

/-- Characters of the tag-stripped text come from the input, the pending
buffer, or the replacement space. -/
theorem stripAux_mem (s : List Char) : ∀ (pending : List Char) (c : Char),
    c ∈ stripAux s pending → c ∈ s ∨ c ∈ pending ∨ c = ' ' := by
  induction s with
  | nil =>
    intro pending c hc
    simp only [stripAux] at hc
    exact Or.inr (Or.inl (List.mem_reverse.mp hc))
  | cons x rest ih =>
    intro pending c hc
    cases pending with
    | nil =>
      simp only [stripAux] at hc
      by_cases hx : (x == '<') = true
      · rw [if_pos hx] at hc
        rcases ih ['<'] c hc with h1 | h2 | h3
        · exact Or.inl (List.mem_cons_of_mem _ h1)
        · have hce : c = '<' := by simpa using h2
          have hxe : x = '<' := beq_iff_eq.1 hx
          rw [hce, ← hxe]
          exact Or.inl (List.mem_cons_self _ _)
        · exact Or.inr (Or.inr h3)
      · rw [if_neg hx] at hc
        rcases List.mem_cons.mp hc with h1 | h2
        · exact Or.inl (h1 ▸ List.mem_cons_self _ _)
        · rcases ih [] c h2 with h1 | h4 | h3
          · exact Or.inl (List.mem_cons_of_mem _ h1)
          · exact absurd h4 (List.not_mem_nil c)
          · exact Or.inr (Or.inr h3)
    | cons p ps =>
      simp only [stripAux] at hc
      by_cases hx : (x == '>') = true
      · rw [if_pos hx] at hc
        rcases List.mem_cons.mp hc with h1 | h2
        · exact Or.inr (Or.inr h1)
        · rcases ih [] c h2 with h1 | h4 | h3
          · exact Or.inl (List.mem_cons_of_mem _ h1)
          · exact absurd h4 (List.not_mem_nil c)
          · exact Or.inr (Or.inr h3)
      · rw [if_neg hx] at hc
        rcases ih (x :: p :: ps) c hc with h1 | h2 | h3
        · exact Or.inl (List.mem_cons_of_mem _ h1)
        · rcases List.mem_cons.mp h2 with h4 | h5
          · exact Or.inl (h4 ▸ List.mem_cons_self _ _)
          · exact Or.inr (Or.inl h5)
        · exact Or.inr (Or.inr h3)

/-- A text without `'>'` satisfies the no-tag-span invariant outright. -/
theorem noTagB_of_not_gt (l : List Char) (h : '>' ∉ l) : noTagB l = true := by
  induction l with
  | nil => rfl
  | cons c rest ih =>
    have h1 : '>' ∉ rest := fun hm => h (List.mem_cons_of_mem _ hm)
    have h2 : (rest.contains '>') = false := by
      cases hv : rest.contains '>' with
      | false => rfl
      | true => exact absurd (by simpa using hv) h1
    rw [noTagB, h2]
    simp [ih h1]

/-- The tag scanner's output contains no strippable tag span, whatever the
(gt-free) pending buffer. -/
theorem noTagB_stripAux (s : List Char) : ∀ pending : List Char,
    '>' ∉ pending → noTagB (stripAux s pending) = true := by
  induction s with
  | nil =>
    intro pending hp
    simp only [stripAux]
    exact noTagB_of_not_gt _ (by simpa using hp)
  | cons x rest ih =>
    intro pending hp
    cases pending with
    | nil =>
      simp only [stripAux]
      by_cases hx : (x == '<') = true
      · rw [if_pos hx]
        exact ih ['<'] (by simp)
      · rw [if_neg hx]
        have hxf : (x == '<') = false := by
          cases hv : x == '<' with
          | false => rfl
          | true => exact absurd hv hx
        rw [noTagB, hxf]
        simp [ih [] (List.not_mem_nil _)]
    | cons p ps =>
      simp only [stripAux]
      by_cases hx : (x == '>') = true
      · rw [if_pos hx]
        rw [noTagB]
        simp [ih [] (List.not_mem_nil _)]
      · rw [if_neg hx]
        apply ih
        intro hm
        rcases List.mem_cons.mp hm with h1 | h2
        · apply hx
          rw [← h1]
          exact beq_self_eq_true _
        · exact hp h2

/-- The stripped text never contains a strippable tag span. -/
theorem noTagB_stripTags (s : List Char) : noTagB (stripTags s) = true :=
  noTagB_stripAux s [] (List.not_mem_nil _)

/-- On a text without `'>'`, the scanner in tag mode flushes its buffer and
copies the rest verbatim. -/
theorem stripAux_no_gt (s : List Char) (hs : '>' ∉ s) : ∀ pending : List Char,
    stripAux s (pending) = pending.reverse ++ s ∨ pending = [] := by
  induction s with
  | nil => intro pending; left; simp [stripAux]
  | cons c rest ih =>
    intro pending
    cases pending with
    | nil => right; rfl
    | cons p ps =>
      left
      have hc : (c == '>') = false := by
        cases hv : c == '>' with
        | false => rfl
        | true =>
          refine absurd ?_ hs
          rw [beq_iff_eq.1 hv]
          exact List.mem_cons_self _ _
      simp only [stripAux, hc]
      have hrest : '>' ∉ rest := fun hm => hs (List.mem_cons_of_mem _ hm)
      rcases ih hrest (c :: p :: ps) with h1 | h2
      · rw [if_neg (by simp [hc])]
        rw [h1]
        simp
      · exact absurd h2 (by simp)

/-- On a text with no strippable tag span, tag stripping is the identity. -/
theorem stripTags_id_of_noTagB (s : List Char) : noTagB s = true → stripTags s = s := by
  rw [stripTags]
  induction s with
  | nil => intro _; rfl
  | cons c rest ih =>
    intro h
    rw [noTagB, Bool.and_eq_true] at h
    obtain ⟨h1, h2⟩ := h
    simp only [stripAux]
    by_cases hc : (c == '<') = true
    · rw [if_pos hc]
      have hgt : (rest.contains '>') = false := by
        cases hv : rest.contains '>' with
        | false => rfl
        | true => rw [hc, hv] at h1; exact absurd h1 (by decide)
      have hgtm : '>' ∉ rest := by
        intro hm
        have hm' : rest.contains '>' = true := by simpa using hm
        rw [hm'] at hgt
        exact absurd hgt (by decide)
      rcases stripAux_no_gt rest hgtm ['<'] with hfl | hfl
      · rw [hfl]
        simp [beq_iff_eq.1 hc]
      · exact absurd hfl (by simp)
    · rw [if_neg hc]
      rw [ih h2]

/-- A boolean that is not true is false. -/
theorem bool_eq_false {b : Bool} (h : ¬b = true) : b = false := by
  cases b with
  | false => rfl
  | true => exact absurd rfl h

/-- Non-membership gives a false `contains`. -/
theorem contains_false_of_not_mem (l : List Char) (c : Char) (h : c ∉ l) :
    l.contains c = false := by
  cases hv : l.contains c with
  | false => rfl
  | true => exact absurd (by simpa using hv) h

/-- A false `contains` gives non-membership. -/
theorem not_mem_of_contains_false (l : List Char) (c : Char) (h : l.contains c = false) :
    c ∉ l := by
  intro hm
  have hm' : l.contains c = true := by simpa using hm
  rw [hm'] at h
  exact absurd h (by decide)

/-- The no-tag-span invariant is inherited by subsequences. -/
theorem noTagB_sublist {t s : List Char} (hsub : List.Sublist t s) (h : noTagB s = true) :
    noTagB t = true := by
  induction hsub with
  | slnil => rfl
  | cons a hs ih =>
    rw [noTagB, Bool.and_eq_true] at h
    exact ih h.2
  | cons₂ a hs ih =>
    rw [noTagB, Bool.and_eq_true] at h
    obtain ⟨h1, h2⟩ := h
    rw [noTagB, Bool.and_eq_true]
    refine ⟨?_, ih h2⟩
    by_cases ha : (a == '<') = true
    · rw [ha, Bool.true_and] at h1
      rw [ha, Bool.true_and]
      rw [Bool.not_eq_true'] at h1 ⊢
      exact contains_false_of_not_mem _ _
        fun hm => not_mem_of_contains_false _ _ h1 (hs.subset hm)
    · rw [bool_eq_false ha, Bool.false_and]
      rfl

/-- Leading-whitespace removal leaves a text that does not start with
whitespace. -/
theorem dropWhile_wsFirst (s : List Char) : wsFirst (s.dropWhile isWsJS) = false := by
  induction s with
  | nil => rfl
  | cons c rest ih =>
    by_cases hc : isWsJS c = true
    · rw [List.dropWhile_cons, if_pos hc]
      exact ih
    · rw [List.dropWhile_cons, if_neg hc]
      rw [wsFirst]
      exact bool_eq_false hc

/-- Leading-whitespace removal is the identity on texts that do not start
with whitespace. -/
theorem dropWhile_id_of_wsFirst (s : List Char) (h : wsFirst s = false) :
    s.dropWhile isWsJS = s := by
  cases s with
  | nil => rfl
  | cons c rest =>
    rw [wsFirst] at h
    rw [List.dropWhile_cons, if_neg (by simp [h])]

/-- Characters of the collapsed text come from the input or are the
replacement space. -/
theorem collapseAux_mem (s : List Char) : ∀ (b : Bool) (c : Char),
    c ∈ collapseAux s b → c ∈ s ∨ c = ' ' := by
  induction s with
  | nil => intro b c hc; simp [collapseAux] at hc
  | cons x rest ih =>
    intro b c hc
    simp only [collapseAux] at hc
    by_cases hx : isWsJS x = true
    · rw [if_pos hx] at hc
      cases b with
      | true =>
        rw [if_pos rfl] at hc
        rcases ih true c hc with h1 | h2
        · exact Or.inl (List.mem_cons_of_mem _ h1)
        · exact Or.inr h2
      | false =>
        rw [if_neg (by decide)] at hc
        rcases List.mem_cons.mp hc with h1 | h2
        · exact Or.inr h1
        · rcases ih true c h2 with h1 | h2
          · exact Or.inl (List.mem_cons_of_mem _ h1)
          · exact Or.inr h2
    · rw [if_neg hx] at hc
      rcases List.mem_cons.mp hc with h1 | h2
      · exact Or.inl (h1 ▸ List.mem_cons_self _ _)
      · rcases ih false c h2 with h1 | h2
        · exact Or.inl (List.mem_cons_of_mem _ h1)
        · exact Or.inr h2

/-- Inside a run the collapser's continuation never starts with whitespace. -/
theorem wsFirst_collapseAux_true (s : List Char) : wsFirst (collapseAux s true) = false := by
  induction s with
  | nil => rfl
  | cons x rest ih =>
    simp only [collapseAux]
    by_cases hx : isWsJS x = true
    · rw [if_pos hx]
      simpa using ih
    · rw [if_neg hx, wsFirst]
      exact bool_eq_false hx

/-- The collapser's output satisfies the collapsed-whitespace invariant. -/
theorem collapsedB_collapseAux (s : List Char) : ∀ b : Bool,
    collapsedB (collapseAux s b) = true := by
  induction s with
  | nil => intro b; rfl
  | cons x rest ih =>
    intro b
    simp only [collapseAux]
    by_cases hx : isWsJS x = true
    · rw [if_pos hx]
      cases b with
      | true => rw [if_pos rfl]; exact ih true
      | false =>
        rw [if_neg (by decide)]
        rw [collapsedB, Bool.and_eq_true]
        refine ⟨?_, ih true⟩
        rw [wsFirst_collapseAux_true]
        decide
    · rw [if_neg hx]
      rw [collapsedB, Bool.and_eq_true]
      refine ⟨?_, ih false⟩
      rw [bool_eq_false hx]
      rfl

/-- On a text with collapsed whitespace, the collapser is the identity (in
run mode too, provided the text does not start with whitespace). -/
theorem collapseAux_id (s : List Char) : collapsedB s = true →
    collapseAux s false = s ∧ (wsFirst s = false → collapseAux s true = s) := by
  induction s with
  | nil => intro _; exact ⟨rfl, fun _ => rfl⟩
  | cons x rest ih =>
    intro h
    rw [collapsedB, Bool.and_eq_true] at h
    obtain ⟨h1, h2⟩ := h
    obtain ⟨ihf, iht⟩ := ih h2
    constructor
    · simp only [collapseAux]
      by_cases hx : isWsJS x = true
      · rw [if_pos hx, if_neg (by decide)]
        rw [hx] at h1
        simp only [Bool.not_true, Bool.false_or, Bool.and_eq_true] at h1
        obtain ⟨hsp, hwf⟩ := h1
        have hx' : x = ' ' := beq_iff_eq.1 hsp
        have hwf' : wsFirst rest = false := by
          rw [Bool.not_eq_true'] at hwf
          exact hwf
        rw [hx', iht hwf']
      · rw [if_neg hx, ihf]
    · intro hws
      rw [wsFirst] at hws
      simp only [collapseAux]
      rw [if_neg (by simp [hws]), ihf]

/-- Whitespace collapsing preserves the no-tag-span invariant. -/
theorem noTagB_collapseAux (s : List Char) : ∀ b : Bool, noTagB s = true →
    noTagB (collapseAux s b) = true := by
  induction s with
  | nil => intro b _; rfl
  | cons x rest ih =>
    intro b h
    rw [noTagB, Bool.and_eq_true] at h
    obtain ⟨h1, h2⟩ := h
    simp only [collapseAux]
    by_cases hx : isWsJS x = true
    · rw [if_pos hx]
      cases b with
      | true => rw [if_pos rfl]; exact ih true h2
      | false =>
        rw [if_neg (by decide), noTagB, Bool.and_eq_true]
        exact ⟨by simp, ih true h2⟩
    · rw [if_neg hx, noTagB, Bool.and_eq_true]
      refine ⟨?_, ih false h2⟩
      by_cases hlt : (x == '<') = true
      · rw [hlt, Bool.true_and] at h1
        rw [hlt, Bool.true_and]
        rw [Bool.not_eq_true'] at h1 ⊢
        apply contains_false_of_not_mem
        intro hm
        rcases collapseAux_mem rest false '>' hm with hmem | hsp
        · exact not_mem_of_contains_false _ _ h1 hmem
        · exact absurd hsp (by decide)
      · rw [bool_eq_false hlt, Bool.false_and]
        rfl

/-- Trailing-whitespace removal yields a subsequence. -/
theorem trimEnd_sublist (s : List Char) : List.Sublist (trimEnd s) s := by
  induction s with
  | nil => exact List.Sublist.refl []
  | cons c rest ih =>
    cases hr : trimEnd rest with
    | nil =>
      have he : trimEnd (c :: rest) = if isWsJS c then [] else [c] := by rw [trimEnd, hr]
      rw [he]
      by_cases hc : isWsJS c = true
      · rw [if_pos hc]
        exact List.nil_sublist _
      · rw [if_neg hc]
        exact (List.nil_sublist rest).cons₂ c
    | cons y ys =>
      have he : trimEnd (c :: rest) = c :: y :: ys := by rw [trimEnd, hr]
      rw [he]
      rw [hr] at ih
      exact ih.cons₂ c

/-- Trailing-whitespace removal is empty or keeps the head. -/
theorem trimEnd_head (c : Char) (rest : List Char) :
    trimEnd (c :: rest) = [] ∨ ∃ r, trimEnd (c :: rest) = c :: r := by
  cases hr : trimEnd rest with
  | nil =>
    by_cases hc : isWsJS c = true
    · left
      rw [trimEnd, hr, if_pos hc]
    · right
      exact ⟨[], by rw [trimEnd, hr, if_neg hc]⟩
  | cons y ys =>
    right
    exact ⟨y :: ys, by rw [trimEnd, hr]⟩

/-- Leading-whitespace removal preserves the collapsed-whitespace
invariant. -/
theorem collapsedB_dropWhile (s : List Char) (h : collapsedB s = true) :
    collapsedB (s.dropWhile isWsJS) = true := by
  induction s with
  | nil => exact h
  | cons c rest ih =>
    by_cases hc : isWsJS c = true
    · rw [List.dropWhile_cons, if_pos hc]
      rw [collapsedB, Bool.and_eq_true] at h
      exact ih h.2
    · rw [List.dropWhile_cons, if_neg hc]
      exact h

/-- Trailing-whitespace removal preserves the collapsed-whitespace
invariant. -/
theorem collapsedB_trimEnd (s : List Char) (h : collapsedB s = true) :
    collapsedB (trimEnd s) = true := by
  induction s with
  | nil => exact h
  | cons c rest ih =>
    rw [collapsedB, Bool.and_eq_true] at h
    obtain ⟨h1, h2⟩ := h
    cases hr : trimEnd rest with
    | nil =>
      have he : trimEnd (c :: rest) = if isWsJS c then [] else [c] := by rw [trimEnd, hr]
      rw [he]
      by_cases hc : isWsJS c = true
      · rw [if_pos hc]
        rfl
      · rw [if_neg hc]
        rw [collapsedB, bool_eq_false hc]
        rfl
    | cons y ys =>
      have he : trimEnd (c :: rest) = c :: y :: ys := by rw [trimEnd, hr]
      rw [he]
      have ihr : collapsedB (y :: ys) = true := by
        rw [← hr]
        exact ih h2
      rw [collapsedB, Bool.and_eq_true]
      refine ⟨?_, ihr⟩
      by_cases hc : isWsJS c = true
      · rw [hc] at h1 ⊢
        simp only [Bool.not_true, Bool.false_or, Bool.and_eq_true] at h1 ⊢
        obtain ⟨hsp, hwf⟩ := h1
        refine ⟨hsp, ?_⟩
        cases rest with
        | nil => simp [trimEnd] at hr
        | cons d ds =>
          rw [wsFirst] at hwf
          rcases trimEnd_head d ds with hh | ⟨r, hh⟩
          · rw [hh] at hr
            exact absurd hr (by simp)
          · rw [hh] at hr
            injection hr with hy hys
            rw [wsFirst, ← hy]
            exact hwf
      · rw [bool_eq_false hc]
        rfl

/-- Trailing-whitespace removal is idempotent. -/
theorem trimEnd_idem (s : List Char) : trimEnd (trimEnd s) = trimEnd s := by
  induction s with
  | nil => rfl
  | cons c rest ih =>
    cases hr : trimEnd rest with
    | nil =>
      have he : trimEnd (c :: rest) = if isWsJS c then [] else [c] := by rw [trimEnd, hr]
      rw [he]
      by_cases hc : isWsJS c = true
      · rw [if_pos hc]
        rfl
      · rw [if_neg hc]
        simp [trimEnd, hc]
    | cons y ys =>
      have he : trimEnd (c :: rest) = c :: y :: ys := by rw [trimEnd, hr]
      rw [he]
      have hid : trimEnd (y :: ys) = y :: ys := by
        rw [← hr, ih, hr]
      rw [trimEnd, hid]

/-- Trailing-whitespace removal preserves not starting with whitespace. -/
theorem wsFirst_trimEnd (s : List Char) (h : wsFirst s = false) :
    wsFirst (trimEnd s) = false := by
  cases s with
  | nil => rfl
  | cons c rest =>
    rcases trimEnd_head c rest with hh | ⟨r, hh⟩
    · rw [hh]
      rfl
    · rw [hh]
      rw [wsFirst] at h ⊢
      exact h

/-- The JS trim is idempotent. -/
theorem trimJS_idem (s : List Char) : trimJS (trimJS s) = trimJS s := by
  rw [trimJS, trimJS]
  have h1 : wsFirst (s.dropWhile isWsJS) = false := dropWhile_wsFirst s
  have h2 : wsFirst (trimEnd (s.dropWhile isWsJS)) = false := wsFirst_trimEnd _ h1
  rw [dropWhile_id_of_wsFirst _ h2]
  exact trimEnd_idem _

/-- The JS trim yields a subsequence. -/
theorem trimJS_sublist (s : List Char) : List.Sublist (trimJS s) s :=
  (trimEnd_sublist _).trans (List.dropWhile_sublist _)

/-- The JS trim preserves the no-tag-span invariant. -/
theorem noTagB_trimJS (s : List Char) (h : noTagB s = true) : noTagB (trimJS s) = true :=
  noTagB_sublist (trimJS_sublist s) h

/-- The JS trim preserves the collapsed-whitespace invariant. -/
theorem collapsedB_trimJS (s : List Char) (h : collapsedB s = true) :
    collapsedB (trimJS s) = true :=
  collapsedB_trimEnd _ (collapsedB_dropWhile _ h)

/-- The strip-collapse-trim pipeline establishes both invariants. -/
theorem sanitizeCore_invariants (s : List Char) :
    noTagB (trimJS (collapseWs (stripTags s))) = true ∧
    collapsedB (trimJS (collapseWs (stripTags s))) = true := by
  constructor
  · apply noTagB_trimJS
    rw [collapseWs]
    exact noTagB_collapseAux _ false (noTagB_stripTags s)
  · apply collapsedB_trimJS
    rw [collapseWs]
    exact collapsedB_collapseAux _ false

/-- The strip-collapse-trim pipeline is idempotent. -/
theorem sanitizeCore_fix (s : List Char) :
    trimJS (collapseWs (stripTags (trimJS (collapseWs (stripTags s))))) =
      trimJS (collapseWs (stripTags s)) := by
  obtain ⟨hn, hcB⟩ := sanitizeCore_invariants s
  have h1 : stripTags (trimJS (collapseWs (stripTags s))) = trimJS (collapseWs (stripTags s)) :=
    stripTags_id_of_noTagB _ hn
  have h2 : collapseWs (trimJS (collapseWs (stripTags s))) = trimJS (collapseWs (stripTags s)) := by
    rw [collapseWs]
    exact (collapseAux_id _ hcB).1
  rw [h1, h2]
  exact trimJS_idem _

/-- The strip-collapse-trim pipeline introduces no ampersand. -/
theorem amp_free_sanitize (s : List Char) (h : '&' ∉ s) :
    '&' ∉ trimJS (collapseWs (stripTags s)) := by
  intro hm
  have hm1 : '&' ∈ collapseWs (stripTags s) := (trimJS_sublist _).subset hm
  rw [collapseWs] at hm1
  rcases collapseAux_mem _ false '&' hm1 with hm2 | hsp
  · rw [stripTags] at hm2
    rcases stripAux_mem s [] '&' hm2 with hm3 | hm4 | hsp
    · exact h hm3
    · exact absurd hm4 (List.not_mem_nil _)
    · exact absurd hsp (by decide)
  · exact absurd hsp (by decide)

/-- C3 (amended): the content sanitizer is idempotent on every input that
contains no ampersand; on general input a second pass can differ, because
entity decoding is applied once per pass. -/
theorem decodeHtml_idempotent_amp_free (s : List Char) (h : '&' ∉ s) :
    decodeHtml (decodeHtml s) = decodeHtml s := by
  by_cases hs : s.isEmpty = true
  · have hnil : s = [] := by
      cases s with
      | nil => rfl
      | cons a l => simp at hs
    subst hnil
    rfl
  · have hds : decodeHtml s = trimJS (collapseWs (stripTags s)) := by
      rw [decodeHtml, if_neg hs, decodeEntities_amp_free s h]
    rw [hds]
    by_cases hT : (trimJS (collapseWs (stripTags s))).isEmpty = true
    · rw [decodeHtml, if_pos hT]
      have hTn : trimJS (collapseWs (stripTags s)) = [] := by
        cases hvv : trimJS (collapseWs (stripTags s)) with
        | nil => rfl
        | cons a l =>
          rw [hvv] at hT
          simp at hT
      rw [hTn]
    · rw [decodeHtml, if_neg hT]
      rw [decodeEntities_amp_free _ (amp_free_sanitize s h)]
      exact sanitizeCore_fix s

/-- C3 counterexample: sanitizing the text amp-amp once yields amp (five
characters), sanitizing it again decodes that to a bare ampersand, so the
sanitizer is not idempotent on all inputs. -/
theorem decodeHtml_not_idempotent :
    decodeHtml (decodeHtml ("&amp;amp;".data)) ≠ decodeHtml ("&amp;amp;".data) := by
  decide

/-- C3 witness: the amended idempotence instantiated on an ampersand-free
text with markup and surplus whitespace. -/
theorem decodeHtml_idempotent_witness :
    ('&' ∉ ("  <b>Hello</b>  world ".data)) ∧
    decodeHtml (decodeHtml ("  <b>Hello</b>  world ".data)) =
      decodeHtml ("  <b>Hello</b>  world ".data) :=
  ⟨by decide, decodeHtml_idempotent_amp_free _ (by decide)⟩
